import Mathlib

/-!
Shallow embedding of the protocol/field schema model of the `bitloom`
repository (`src/models/field.rs`, `src/models/protocol.rs`).

Modelling conventions:
* Rust `String` is Lean `String`; `u32` bit counts are `Nat` (the source
  performs no wrapping arithmetic on them and in debug builds an overflow
  panics, so `Nat` sums model exactly the non-overflowing executions the
  spec talks about); `i128` field values are `Int` (stored only, never
  computed with).
* `HashMap<String, _>` collections are association lists keyed by the
  entry's own `id` (the registry maintains `key = protocol.id` at every
  insertion site); the maps carried inside `Protocol` (`metadata`,
  `parent_constraints`) are `List (String × _)`.
* A Rust method `fn f(&mut self, ...) -> Result<(), String>` becomes a
  pure function returning `State × Option ProtoErr`: the returned state is
  the (possibly mutated) receiver, `none` means `Ok(())`.  Error messages
  built with `format!` are modelled by an error datatype `ProtoErr` whose
  constructors are in one-to-one correspondence with the `Err(...)` sites
  of the source and carry the same identifying payloads. A caller-supplied
  `FnOnce(&mut T) -> Result<(), String>` mutator is a pure function
  `T → T × Option String` (the value it left behind plus its result),
  which lets the snapshot/rollback discipline of `edit_field` /
  `edit_protocol` be modelled exactly: the rollback writes the snapshot
  back over whatever the mutator produced.
* The two registry walks that Rust writes as unbounded loops
  (`get_inheritance_chain`'s parent walk and `remove_protocol`'s
  breadth-first child collection) are given explicit fuel
  `registry.length`; for every registry whose parent graph is acyclic and
  duplicate-free — the only registries the public API can build, see the
  `Reachable` development below — that fuel is proved sufficient, so the
  fueled functions agree with the source loops wherever the source loops
  terminate.
-/

/-- `EnumVariant` from `field.rs`. -/
structure EnumVariant where
  value : Int
  name : Option String
  description : Option String
deriving DecidableEq, Repr

/-- `FieldType` from `field.rs`. -/
inductive FieldType where
  | fixed : Int → FieldType
  | enum : List EnumVariant → FieldType
  | range : Int → Int → Bool → FieldType
  | expr : String → FieldType
  | input : FieldType
deriving DecidableEq, Repr

/-- `FieldLength` from `field.rs`: `Fixed(bits)` or `Variable`. -/
inductive FieldLength where
  | fixed : Nat → FieldLength
  | varLen : FieldLength
deriving DecidableEq, Repr

/-- `FieldRule` from `field.rs`. -/
structure FieldRule where
  id : String
  name : Option String
  field_type : FieldType
  length : FieldLength
  description : Option String
deriving DecidableEq, Repr

namespace FieldRule

/-- `FieldRule::new` from `field.rs`. -/
def new (id : String) (field_type : FieldType) (length : FieldLength) : FieldRule :=
  { id := id, name := none, field_type := field_type, length := length,
    description := none }

/-- `impl Default for FieldRule` from `field.rs`. -/
def defaultRule : FieldRule :=
  { id := "new_field", name := none, field_type := .fixed 0,
    length := .fixed 8, description := none }

end FieldRule

/-- `Endianness` from `protocol.rs`. -/
inductive Endianness where
  | big
  | little
deriving DecidableEq, Repr

/-- `ProtocolLength` from `protocol.rs`: `Fixed(bits)` or
`Variable(fixed-prefix bits)`. -/
inductive ProtocolLength where
  | fixed : Nat → ProtocolLength
  | varLen : Nat → ProtocolLength
deriving DecidableEq, Repr

/-- `Protocol` from `protocol.rs`. -/
structure Protocol where
  id : String
  name : Option String
  endianness : Endianness
  fields : List FieldRule
  length : ProtocolLength
  description : Option String
  metadata : List (String × String)
  parent_id : Option String
  parent_constraints : List (String × Int)
deriving DecidableEq, Repr

/-- Error taxonomy: one constructor per distinct `Err(...)` site of
`protocol.rs`, carrying the ids the `format!` message interpolates.
`mutatorFailed` carries the message the caller-supplied mutator returned
(`edit_field` / `edit_protocol` propagate it verbatim). -/
inductive ProtoErr where
  | duplicateFieldId : String → String → ProtoErr
  | variableFieldNotLast : String → String → String → ProtoErr
  | fieldNotFound : String → String → ProtoErr
  | duplicateField : String → ProtoErr
  | fieldMissing : String → ProtoErr
  | mutatorFailed : String → ProtoErr
  | fieldIdImmutable : ProtoErr
  | duplicateProtocolId : String → ProtoErr
  | parentNotFound : String → ProtoErr
  | protocolNotFound : String → ProtoErr
  | protocolIdImmutable : ProtoErr
  | parentImmutable : ProtoErr
deriving DecidableEq, Repr

namespace Protocol

/-- `Protocol::new` from `protocol.rs`. -/
def new (id : String) (name : Option String) (endianness : Endianness)
    (parent_id : Option String) : Protocol :=
  { id := id, name := name, endianness := endianness, fields := [],
    length := .fixed 0, description := none, metadata := [],
    parent_id := parent_id, parent_constraints := [] }

/-- The loop body of `Protocol::calculate_length`: walk the fields in
order accumulating `Fixed` bit widths; the first `Variable` field makes
the result `Variable(sum-so-far)` and stops the walk. -/
def calcBits : List FieldRule → Nat → ProtocolLength
  | [], acc => .fixed acc
  | f :: rest, acc =>
    match f.length with
    | .fixed bits => calcBits rest (acc + bits)
    | .varLen => .varLen acc

/-- `Protocol::calculate_length` from `protocol.rs` (writes the derived
length back into the protocol). -/
def calculate_length (p : Protocol) : Protocol :=
  { p with length := calcBits p.fields 0 }

/-- `Protocol::update_metadata` from `protocol.rs` (`HashMap::insert`,
modelled as overwrite-or-append on the association list). -/
def update_metadata (p : Protocol) (key value : String) : Protocol :=
  if p.metadata.any (fun kv => kv.1 == key) then
    { p with metadata :=
        p.metadata.map (fun kv => if kv.1 == key then (key, value) else kv) }
  else
    { p with metadata := p.metadata ++ [(key, value)] }

/-- `Protocol::add_field` from `protocol.rs`. -/
def add_field (p : Protocol) (field_rule : FieldRule) :
    Protocol × Option ProtoErr :=
  if p.fields.any (fun f => f.id == field_rule.id) then
    (p, some (.duplicateFieldId field_rule.id p.id))
  else
    match p.fields.getLast? with
    | some last_field =>
      if last_field.length = .varLen then
        (p, some (.variableFieldNotLast field_rule.id last_field.id p.id))
      else
        (({ p with fields := p.fields ++ [field_rule] }).calculate_length, none)
    | none =>
      (({ p with fields := p.fields ++ [field_rule] }).calculate_length, none)

/-- `Protocol::remove_field` from `protocol.rs` (`Vec::retain`). -/
def remove_field (p : Protocol) (field_id : String) :
    Protocol × Option ProtoErr :=
  let kept := p.fields.filter (fun f => ¬ f.id == field_id)
  if kept.length = p.fields.length then
    (p, some (.fieldNotFound field_id p.id))
  else
    (({ p with fields := kept }).calculate_length, none)

/-- `Protocol::move_field` from `protocol.rs`: remove at the found
position, clamp the target index to the length after removal, reinsert.
Note the source does *not* invoke `calculate_length` here. -/
def move_field (p : Protocol) (field_id : String) (new_index : Nat) :
    Protocol × Option ProtoErr :=
  match p.fields.findIdx? (fun f => f.id == field_id) with
  | some pos =>
    let fld := p.fields.getD pos FieldRule.defaultRule
    let rest := p.fields.eraseIdx pos
    ({ p with fields := rest.insertIdx (min new_index rest.length) fld }, none)
  | none => (p, some (.fieldNotFound field_id p.id))

/-- `Protocol::update_field_id` from `protocol.rs`. -/
def update_field_id (p : Protocol) (old_id new_id : String) :
    Protocol × Option ProtoErr :=
  if old_id = new_id then
    (p, none)
  else if p.fields.any (fun f => f.id == new_id) then
    (p, some (.duplicateField new_id))
  else
    match p.fields.findIdx? (fun f => f.id == old_id) with
    | some pos =>
      let fld := p.fields.getD pos FieldRule.defaultRule
      ({ p with fields := p.fields.set pos { fld with id := new_id } }, none)
    | none => (p, some (.fieldMissing old_id))

/-- `Protocol::edit_field` from `protocol.rs`.  The mutator `f` stands
for the `FnOnce(&mut FieldRule) -> Result<(), String>` closure: it
returns the field value it left behind together with its result.  On a
mutator error or an attempted id change the snapshot `backup` is written
back over the mutator's output (`*field = backup`). -/
def edit_field (p : Protocol) (field_id : String)
    (f : FieldRule → FieldRule × Option String) :
    Protocol × Option ProtoErr :=
  match p.fields.findIdx? (fun fr => fr.id == field_id) with
  | some pos =>
    let backup := p.fields.getD pos FieldRule.defaultRule
    let applied := f backup
    match applied.2 with
    | some e => ({ p with fields := p.fields.set pos backup },
                 some (.mutatorFailed e))
    | none =>
      if applied.1.id = backup.id then
        let p2 : Protocol := { p with fields := p.fields.set pos applied.1 }
        if applied.1.length = backup.length then
          (p2, none)
        else
          (p2.calculate_length, none)
      else
        ({ p with fields := p.fields.set pos backup },
         some .fieldIdImmutable)
  | none => (p, some (.fieldNotFound field_id p.id))

/-- `Protocol::set_parent_constraint` from `protocol.rs`. -/
def set_parent_constraint (p : Protocol) (field_id : String) (value : Int) :
    Protocol :=
  if p.parent_constraints.any (fun kv => kv.1 == field_id) then
    { p with parent_constraints :=
        (p.parent_constraints.map
          (fun kv => if kv.1 == field_id then (field_id, value) else kv)) }
  else
    { p with parent_constraints := p.parent_constraints ++ [(field_id, value)] }

end Protocol

/-!  ## `ProtocolRegistry` (`protocol.rs`)

The registry's `HashMap<String, Protocol>` is modelled as a
`List Protocol` keyed by each protocol's own `id` field: every insertion
site of the source stores a protocol under the key equal to its `id`, so
the pair `(key, value)` is redundant.  Hash-map iteration order is
unspecified in Rust; none of the registry operations' observable results
depend on it (the breadth-first removal set and the per-value parent
rewrites are order-independent), so the list order is immaterial. -/

/-- The keys of the registry map. -/
def regKeys (ps : List Protocol) : List String := ps.map (fun p => p.id)

/-- `HashMap::contains_key`. -/
def containsKey (ps : List Protocol) (id : String) : Bool :=
  ps.any (fun p => p.id == id)

/-- `HashMap::get`. -/
def lookupProto (ps : List Protocol) (id : String) : Option Protocol :=
  ps.find? (fun p => p.id == id)

/-- Ids of the direct children of `id`:
`protocols.values().filter(|p| p.parent_id == Some(id)).map(|p| p.id)`. -/
def childIds (ps : List Protocol) (id : String) : List String :=
  (ps.filter (fun p => p.parent_id == some id)).map (fun p => p.id)

namespace ProtocolRegistry

/-- `ProtocolRegistry::new`. -/
def new : List Protocol := []

/-- `ProtocolRegistry::create_protocol`. -/
def create_protocol (ps : List Protocol) (id : String) (name : Option String)
    (endianness : Endianness) (parent_id : Option String) :
    List Protocol × Option ProtoErr :=
  if containsKey ps id then
    (ps, some (.duplicateProtocolId id))
  else
    match parent_id with
    | some pid =>
      if containsKey ps pid then
        (ps ++ [Protocol.new id name endianness parent_id], none)
      else
        (ps, some (.parentNotFound pid))
    | none => (ps ++ [Protocol.new id name endianness parent_id], none)

/-- The `while i < to_remove.len()` worklist loop of
`ProtocolRegistry::remove_protocol`.  `done` holds `to_remove[0..i]`
(already scanned), `pending` holds `to_remove[i..]`; each iteration moves
one id across and appends its children.  The source loop carries no
bound; the fuel stands in for it and `remove_protocol` passes
`ps.length`, which `bfs_fuel_sufficient` below proves sufficient on every
duplicate-free acyclic registry. -/
def bfsAux (ps : List Protocol) : Nat → List String → List String → List String
  | 0, done, pending => done ++ pending
  | _ + 1, done, [] => done
  | fuel + 1, done, c :: rest =>
    bfsAux ps fuel (done ++ [c]) (rest ++ childIds ps c)

/-- `ProtocolRegistry::remove_protocol`. -/
def remove_protocol (ps : List Protocol) (protocol_id : String) :
    List Protocol × Option ProtoErr :=
  if containsKey ps protocol_id then
    let to_remove := bfsAux ps ps.length [] [protocol_id]
    (ps.filter (fun p => ¬ to_remove.contains p.id), none)
  else
    (ps, some (.protocolNotFound protocol_id))

/-- The body of `update_protocol_id`'s `values_mut` loop: rewrite a
`parent_id` that pointed at `old_id` to point at `new_id`. -/
def reparent (old_id new_id : String) (p : Protocol) : Protocol :=
  if p.parent_id = some old_id then { p with parent_id := some new_id } else p

/-- `ProtocolRegistry::update_protocol_id`. -/
def update_protocol_id (ps : List Protocol) (old_id new_id : String) :
    List Protocol × Option ProtoErr :=
  if old_id = new_id then
    (ps, none)
  else if containsKey ps new_id then
    (ps, some (.duplicateProtocolId new_id))
  else
    match lookupProto ps old_id with
    | some proto =>
      let inserted := (ps.filter (fun p => ¬ p.id == old_id))
        ++ [{ proto with id := new_id }]
      (inserted.map (reparent old_id new_id), none)
    | none => (ps, some (.protocolNotFound old_id))

/-- `ProtocolRegistry::get_protocol`. -/
def get_protocol (ps : List Protocol) (protocol_id : String) :
    Option Protocol :=
  lookupProto ps protocol_id

/-- `ProtocolRegistry::edit_protocol`.  The mutator `f` models the
`FnOnce(&mut Protocol) -> Result<(), String>` closure as the protocol it
left behind plus its result; the rollback branches write the snapshot
back (`*proto = backup`). -/
def edit_protocol (ps : List Protocol) (protocol_id : String)
    (f : Protocol → Protocol × Option String) :
    List Protocol × Option ProtoErr :=
  match ps.findIdx? (fun p => p.id == protocol_id) with
  | some pos =>
    let backup := ps.getD pos (Protocol.new "" none .big none)
    let applied := f backup
    match applied.2 with
    | some e => (ps.set pos backup, some (.mutatorFailed e))
    | none =>
      if applied.1.id = backup.id then
        if applied.1.parent_id = backup.parent_id then
          (ps.set pos applied.1, none)
        else
          (ps.set pos backup, some .parentImmutable)
      else
        (ps.set pos backup, some .protocolIdImmutable)
  | none => (ps, some (.protocolNotFound protocol_id))

/-- The `while let Some(id) = current_id` walk of
`ProtocolRegistry::get_inheritance_chain`, fueled.  `acc` collects the
protocols leaf-to-root, exactly as the source pushes them before the
final `reverse`. -/
def chainAux (ps : List Protocol) :
    Nat → Option String → List Protocol → List Protocol
  | _, none, acc => acc
  | 0, some _, acc => acc
  | fuel + 1, some id, acc =>
    match lookupProto ps id with
    | some proto => chainAux ps fuel proto.parent_id (acc ++ [proto])
    | none => acc

/-- `get_inheritance_chain` computed with explicit fuel. -/
def chainWithFuel (ps : List Protocol) (fuel : Nat) (protocol_id : String) :
    List Protocol :=
  (chainAux ps fuel (some protocol_id) []).reverse

/-- `ProtocolRegistry::get_inheritance_chain`: root-first, leaf-last. -/
def get_inheritance_chain (ps : List Protocol) (protocol_id : String) :
    List Protocol :=
  chainWithFuel ps ps.length protocol_id

/-- The fold loop of `ProtocolRegistry::get_total_length` over the chain:
sum `Fixed` lengths; the first `Variable(bits)` protocol yields
`Variable(sum-so-far + bits)` immediately. -/
def aggrChain : List Protocol → Nat → ProtocolLength
  | [], acc => .fixed acc
  | p :: rest, acc =>
    match p.length with
    | .fixed bits => aggrChain rest (acc + bits)
    | .varLen bits => .varLen (acc + bits)

/-- `ProtocolRegistry::get_total_length`. -/
def get_total_length (ps : List Protocol) (protocol_id : String) :
    ProtocolLength :=
  aggrChain (get_inheritance_chain ps protocol_id) 0

/-- `ProtocolRegistry::resolve_fields`. -/
def resolve_fields (ps : List Protocol) (protocol_id : String) :
    Except ProtoErr (List FieldRule) :=
  let chain := get_inheritance_chain ps protocol_id
  if chain.isEmpty then
    .error (.protocolNotFound protocol_id)
  else
    .ok ((chain.map (fun p => p.fields)).flatten)

end ProtocolRegistry

/-- `Field` from `field.rs` (named `PacketField` here because Lean's
library already owns the name `Field`). -/
structure PacketField where
  rule_id : String
  value : List Nat
  ignore_rules : Bool
deriving DecidableEq, Repr

/-- `Field::new` (constructor used by `Packet::new`). -/
def PacketField.new (rule_id : String) (value : List Nat) (ignore_rules : Bool) :
    PacketField :=
  { rule_id := rule_id, value := value, ignore_rules := ignore_rules }

/-- `Packet` from `protocol.rs`. -/
structure Packet where
  protocol_id : String
  field_values : List PacketField
deriving DecidableEq, Repr

namespace Packet

/-- `Packet::new`. -/
def new (protocol_id : String) (field_rules : List FieldRule) : Packet :=
  { protocol_id := protocol_id,
    field_values := field_rules.map (fun rule => PacketField.new rule.id [] false) }

/-- `Packet::set_field_value`. -/
def set_field_value (pk : Packet) (index : Nat) (value : List Nat) :
    Packet × Option String :=
  if index < pk.field_values.length then
    let fld := pk.field_values.getD index (PacketField.new "" [] false)
    ({ pk with field_values :=
        pk.field_values.set index { fld with value := value } }, none)
  else
    (pk, some "index out of range")

/-- `Packet::is_complete`. -/
def is_complete (pk : Packet) : Bool :=
  pk.field_values.all (fun f => ¬ f.value.isEmpty)

end Packet

/-!  ## Spec-side definitions

Predicates transcribing the section-3 invariants of the specification and
the inheritance-graph notions the registry claims quantify over.  These
are written from the spec's words; everything above is written from the
source. -/

/-- Spec §3 invariant 1: field ids are unique within a protocol. -/
abbrev FieldIdsUnique (fs : List FieldRule) : Prop :=
  (fs.map (fun f => f.id)).Nodup

/-- First half of spec §3 invariant 2: at most one field has `Variable`
length. -/
abbrev AtMostOneVariable (fs : List FieldRule) : Prop :=
  (fs.filter (fun f => f.length == FieldLength.varLen)).length ≤ 1

/-- Second half of spec §3 invariant 2: any `Variable`-length field is
the last field (equivalently, no field before the last one is
`Variable`). -/
abbrev VariableIsLast (fs : List FieldRule) : Prop :=
  ∀ f ∈ fs.dropLast, f.length ≠ FieldLength.varLen

/-- Spec §3 invariants 1–3 for a single protocol: unique field ids, a
single trailing variable-length field at most, and a `length` field that
agrees with what `calculate_length` derives from the field sequence. -/
abbrev SectionThreeInv (p : Protocol) : Prop :=
  FieldIdsUnique p.fields ∧ AtMostOneVariable p.fields ∧
    VariableIsLast p.fields ∧ p.length = Protocol.calcBits p.fields 0

/-- Concrete fixed-width field (8 bits). -/
def fRule1 : FieldRule := FieldRule.new "f1" (.fixed 0) (.fixed 8)

/-- Concrete variable-length field. -/
def fRule2 : FieldRule := FieldRule.new "f2" .input .varLen

/-- A second variable-length field, used to exhibit a duplicate-variable
state. -/
def fRule3 : FieldRule := FieldRule.new "f3" .input .varLen

/-- A protocol holding `[f1 : Fixed(8), f2 : Variable]` with the derived
length `Variable(8)` — exactly the state `add_field` produces, satisfying
every §3 invariant. -/
def protoVar : Protocol :=
  { Protocol.new "p" none .big none with
      fields := [fRule1, fRule2], length := .varLen 8 }

example : ((Protocol.new "p" none .big none).add_field fRule1).1.add_field fRule2
    = (protoVar, none) := by decide

/-- C1. The spec asserts that after every successful public mutating
operation — `move_field` included — `Protocol.length` equals what
`calculate_length` derives from the resulting field sequence.  The code
violates this: `move_field` never recomputes the length.  On the
protocol `[f1 : Fixed(8), f2 : Variable]` (which satisfies every §3
invariant), `move_field("f2", 0)` succeeds, the stored length stays
`Variable(8)`, but `calculate_length` on the reordered sequence
`[f2, f1]` yields `Variable(0)`. -/
theorem c1_move_field_keeps_stale_length :
    SectionThreeInv protoVar ∧
    (protoVar.move_field "f2" 0).2 = none ∧
    (protoVar.move_field "f2" 0).1.length = ProtocolLength.varLen 8 ∧
    Protocol.calcBits (protoVar.move_field "f2" 0).1.fields 0
      = ProtocolLength.varLen 0 := by
  decide

/-- C2. The spec asserts that after every successful mutating operation
at most one field is `Variable`-length and any such field is last.  The
code violates this: on `[f1 : Fixed(8), f2 : Variable]` (satisfying the
§3 invariants), `move_field("f1", 1)` succeeds and leaves
`[f2 : Variable, f1 : Fixed(8)]`, whose variable field is not last; a
subsequent `add_field` of a second variable-length field then also
succeeds (the insertion check only inspects the *last* field), leaving
two variable-length fields. -/
theorem c2_move_field_breaks_variable_last :
    SectionThreeInv protoVar ∧
    (protoVar.move_field "f1" 1).2 = none ∧
    ¬ VariableIsLast (protoVar.move_field "f1" 1).1.fields ∧
    ((protoVar.move_field "f1" 1).1.add_field fRule3).2 = none ∧
    ¬ AtMostOneVariable ((protoVar.move_field "f1" 1).1.add_field fRule3).1.fields := by
  decide

/-- Helper: writing an element's own value back into its slot is the
identity — this is what makes the source's `*field = backup` rollback
restore the original state. -/
theorem set_getD_self {α : Type} (l : List α) (i : Nat) (d : α)
    (h : i < l.length) : l.set i (l.getD i d) = l := by
  rw [List.getD_eq_getElem l d h]
  induction l generalizing i with
  | nil => simp at h
  | cons a t ih =>
    cases i with
    | zero => simp
    | succ j =>
      simp only [List.set_cons_succ, List.getElem_cons_succ]
      rw [ih j (by simpa using h)]

/-- Helper: a `findIdx?` hit is inside the list. -/
theorem findIdx?_lt_length {α : Type} {l : List α} {q : α → Bool} {i : Nat}
    (h : l.findIdx? q = some i) : i < l.length :=
  (List.findIdx?_eq_some_iff_findIdx_eq.mp h).1

/-- C3. `edit_field` on a protocol containing the addressed field: a
failing mutator, or one that changed the field's id, leaves the protocol
exactly as it was (the snapshot written back over the mutator's output
restores the field byte-for-byte) and reports `MutatorFailed` /
the id-immutability error respectively; a successful id-preserving
mutator's output is kept, and the protocol length is recomputed exactly
when the applied field's length differs from the snapshot's. -/
theorem c3_edit_field_rollback_or_commit (p : Protocol) (fid : String)
    (i : Nat) (f : FieldRule → FieldRule × Option String) (b : FieldRule)
    (r : FieldRule × Option String)
    (h : p.fields.findIdx? (fun fr => fr.id == fid) = some i)
    (hb : p.fields.getD i FieldRule.defaultRule = b)
    (hr : f b = r) :
    (∀ e, r.2 = some e →
      p.edit_field fid f = (p, some (.mutatorFailed e))) ∧
    (r.2 = none → r.1.id ≠ b.id →
      p.edit_field fid f = (p, some .fieldIdImmutable)) ∧
    (r.2 = none → r.1.id = b.id →
      (p.edit_field fid f).2 = none ∧
      (p.edit_field fid f).1.fields = p.fields.set i r.1 ∧
      (r.1.length = b.length → (p.edit_field fid f).1.length = p.length) ∧
      (r.1.length ≠ b.length →
        (p.edit_field fid f).1.length
          = Protocol.calcBits (p.fields.set i r.1) 0)) := by
  have hi : i < p.fields.length := findIdx?_lt_length h
  have hrestore : p.fields.set i b = p.fields := by
    rw [← hb]; exact set_getD_self _ _ _ hi
  refine ⟨?_, ?_, ?_⟩
  · intro e he
    simp only [Protocol.edit_field, h, hb, hr, he, hrestore]
  · intro hok hne
    simp only [Protocol.edit_field, h, hb, hr, hok, if_neg hne, hrestore]
  · intro hok heq
    simp only [Protocol.edit_field, h, hb, hr, hok, if_pos heq]
    by_cases hlen : r.1.length = b.length
    · simp [if_pos hlen]
      exact fun hc => absurd hlen hc
    · simp [if_neg hlen, Protocol.calculate_length]
      exact fun hc => absurd hc hlen

/-- A protocol with a single 8-bit field, as built by the source's own
test helper (`test_protocol().with_f("f1", 8)`). -/
def protoOne : Protocol :=
  { Protocol.new "p" none .big none with
      fields := [fRule1], length := .fixed 8 }

/-- A mutator that widens the field to 16 bits and succeeds (the
source's `test_edit_field_success` closure). -/
def widenMutator : FieldRule → FieldRule × Option String :=
  fun fr => ({ fr with length := .fixed 16 }, none)

/-- Witness for C3: the success branch of
`c3_edit_field_rollback_or_commit` at a concrete protocol and mutator,
hypotheses discharged by evaluation. -/
theorem c3_edit_field_witness :
    (protoOne.edit_field "f1" widenMutator).2 = none ∧
    (protoOne.edit_field "f1" widenMutator).1.fields
      = protoOne.fields.set 0 (widenMutator fRule1).1 ∧
    ((widenMutator fRule1).1.length = fRule1.length →
      (protoOne.edit_field "f1" widenMutator).1.length = protoOne.length) ∧
    ((widenMutator fRule1).1.length ≠ fRule1.length →
      (protoOne.edit_field "f1" widenMutator).1.length
        = Protocol.calcBits (protoOne.fields.set 0 (widenMutator fRule1).1) 0) :=
  (c3_edit_field_rollback_or_commit protoOne "f1" 0 widenMutator fRule1
    (widenMutator fRule1) (by decide) (by decide) rfl).2.2 rfl (by decide)

/-- C8. `move_field` on a protocol containing the addressed field
succeeds for *every* target index: the result reinserts the removed
field at the target clamped to the post-removal length, so any index at
or beyond the end places the field last instead of erroring; and
`move_field` fails (with the field-not-found error) exactly when no
field carries the id, leaving the sequence untouched. -/
theorem c8_move_field_clamps (p : Protocol) (fid : String) (n i : Nat)
    (h : p.fields.findIdx? (fun f => f.id == fid) = some i) :
    (p.move_field fid n).2 = none ∧
    (p.move_field fid n).1.fields
      = (p.fields.eraseIdx i).insertIdx
          (min n (p.fields.eraseIdx i).length)
          (p.fields.getD i FieldRule.defaultRule) ∧
    (p.fields.length - 1 ≤ n →
      (p.move_field fid n).1.fields
        = p.fields.eraseIdx i ++ [p.fields.getD i FieldRule.defaultRule]) ∧
    (∀ fid2, (∀ f ∈ p.fields, f.id ≠ fid2) →
      p.move_field fid2 n = (p, some (.fieldNotFound fid2 p.id))) := by
  have hi : i < p.fields.length := findIdx?_lt_length h
  have herase : (p.fields.eraseIdx i).length = p.fields.length - 1 := by
    rw [List.length_eraseIdx]; simp [hi]
  refine ⟨?_, ?_, ?_, ?_⟩
  · simp only [Protocol.move_field, h]
  · simp only [Protocol.move_field, h]
  · intro hn
    simp only [Protocol.move_field, h]
    have hm : min n (p.fields.eraseIdx i).length
        = (p.fields.eraseIdx i).length := by
      apply Nat.min_eq_right
      rw [herase]; exact hn
    rw [hm, List.insertIdx_length_self]
  · intro fid2 hab
    have hnone : p.fields.findIdx? (fun f => f.id == fid2) = none := by
      apply List.findIdx?_eq_none_iff.mpr
      intro x hx
      simpa using hab x hx
    simp only [Protocol.move_field, hnone]

/-- A protocol with three fixed-width fields, mirroring the source's
`test_move_field_out_of_bounds` setup. -/
def protoThree : Protocol :=
  { Protocol.new "p" none .big none with
      fields := [FieldRule.new "a" (.fixed 0) (.fixed 8),
                 FieldRule.new "b" (.fixed 0) (.fixed 16),
                 FieldRule.new "c" (.fixed 0) (.fixed 32)],
      length := .fixed 56 }

/-- Witness for C8: moving `"a"` to the out-of-range index 10 in a
three-field protocol succeeds and places it at the end. -/
theorem c8_move_field_witness :
    (protoThree.move_field "a" 10).2 = none ∧
    (protoThree.move_field "a" 10).1.fields
      = protoThree.fields.eraseIdx 0
          ++ [protoThree.fields.getD 0 FieldRule.defaultRule] :=
  ⟨(c8_move_field_clamps protoThree "a" 10 0 (by decide)).1,
   (c8_move_field_clamps protoThree "a" 10 0 (by decide)).2.2.1 (by decide)⟩

/-- C10. Reading `get_total_length` at an id absent from the registry
silently yields `Fixed(0)` instead of an error, and
`get_inheritance_chain` of an absent id silently yields the empty chain;
a registry holding an (existing) field-less root protocol `"a"` returns
the very same `Fixed(0)` for `"a"`, so the two cases are
indistinguishable through `get_total_length`. -/
theorem c10_absent_id_reads (ps : List Protocol) (id : String)
    (h : containsKey ps id = false) :
    ProtocolRegistry.get_total_length ps id = ProtocolLength.fixed 0 ∧
    ProtocolRegistry.get_inheritance_chain ps id = [] ∧
    (containsKey [Protocol.new "a" none .big none] "a" = true ∧
      ProtocolRegistry.get_total_length [Protocol.new "a" none .big none] "a"
        = ProtocolLength.fixed 0) := by
  have hl : lookupProto ps id = none := by
    unfold lookupProto
    rw [List.find?_eq_none]
    intro x hx
    simp only [Bool.not_eq_true]
    cases hc : (x.id == id) with
    | false => rfl
    | true =>
      exfalso
      have hany : ps.any (fun p => p.id == id) = true :=
        List.any_eq_true.mpr ⟨x, hx, hc⟩
      unfold containsKey at h
      rw [h] at hany
      exact Bool.false_ne_true hany
  have hchain : ProtocolRegistry.get_inheritance_chain ps id = [] := by
    unfold ProtocolRegistry.get_inheritance_chain ProtocolRegistry.chainWithFuel
    cases hps : ps.length with
    | zero => simp [ProtocolRegistry.chainAux]
    | succ m => simp [ProtocolRegistry.chainAux, hl]
  refine ⟨?_, hchain, by decide, by decide⟩
  unfold ProtocolRegistry.get_total_length
  rw [hchain]
  rfl

/-- Witness for C10 at the concrete absent id `"zz"` against the
one-protocol registry. -/
theorem c10_absent_id_witness :
    ProtocolRegistry.get_total_length [Protocol.new "a" none .big none] "zz"
      = ProtocolLength.fixed 0 ∧
    ProtocolRegistry.get_inheritance_chain [Protocol.new "a" none .big none] "zz"
      = [] :=
  ⟨(c10_absent_id_reads [Protocol.new "a" none .big none] "zz" (by decide)).1,
   (c10_absent_id_reads [Protocol.new "a" none .big none] "zz" (by decide)).2.1⟩

/-- Whether a `ProtocolLength` is `Fixed`. -/
def isFixedLen : ProtocolLength → Bool
  | .fixed _ => true
  | .varLen _ => false

/-- The bit payload of a `ProtocolLength` (meaningful for `Fixed`; the
spec-level sums below only apply it under all-`Fixed` hypotheses). -/
def lenBits : ProtocolLength → Nat
  | .fixed b => b
  | .varLen b => b

/-- Sum of the stored lengths along a chain segment. -/
def sumFixed (ch : List Protocol) : Nat :=
  (ch.map (fun p => lenBits p.length)).sum

/-- Helper: the `get_total_length` fold on an all-`Fixed` chain sums the
bit counts. -/
theorem aggrChain_all_fixed (ch : List Protocol) :
    ∀ acc : Nat, (∀ p ∈ ch, isFixedLen p.length = true) →
      ProtocolRegistry.aggrChain ch acc = .fixed (acc + sumFixed ch) := by
  induction ch with
  | nil => intro acc _; simp [ProtocolRegistry.aggrChain, sumFixed]
  | cons p rest ih =>
    intro acc hall
    have hp := hall p (List.mem_cons_self p rest)
    cases hb : p.length with
    | varLen b => rw [hb] at hp; simp [isFixedLen] at hp
    | fixed b =>
      have hrest : ∀ q ∈ rest, isFixedLen q.length = true :=
        fun q hq => hall q (List.mem_cons_of_mem p hq)
      simp only [ProtocolRegistry.aggrChain, hb]
      rw [ih (acc + b) hrest]
      have : acc + b + sumFixed rest = acc + sumFixed (p :: rest) := by
        simp [sumFixed, hb, lenBits]
        omega
      rw [this]

/-- Helper: the `get_total_length` fold stops at the first `Variable`
chain entry, returning the fixed prefix accumulated so far plus that
entry's prefix bits, ignoring everything after it. -/
theorem aggrChain_var (pre : List Protocol) :
    ∀ (acc k : Nat) (p : Protocol) (post : List Protocol),
      (∀ q ∈ pre, isFixedLen q.length = true) →
      p.length = ProtocolLength.varLen k →
      ProtocolRegistry.aggrChain (pre ++ p :: post) acc
        = .varLen (acc + sumFixed pre + k) := by
  induction pre with
  | nil =>
    intro acc k p post _ hp
    simp [ProtocolRegistry.aggrChain, hp, sumFixed]
  | cons q rest ih =>
    intro acc k p post hall hp
    have hq := hall q (List.mem_cons_self q rest)
    cases hb : q.length with
    | varLen b => rw [hb] at hq; simp [isFixedLen] at hq
    | fixed b =>
      have hrest : ∀ x ∈ rest, isFixedLen x.length = true :=
        fun x hx => hall x (List.mem_cons_of_mem q hx)
      simp only [List.cons_append, ProtocolRegistry.aggrChain, hb, List.append_eq]
      rw [ih (acc + b) k p post hrest hp]
      have : acc + b + sumFixed rest + k = acc + sumFixed (q :: rest) + k := by
        simp [sumFixed, hb, lenBits]
        omega
      rw [this]

/-- Concrete root protocol: one 8-bit field, `Fixed(8)`. -/
def protoA : Protocol :=
  { Protocol.new "a" none .big none with
      fields := [FieldRule.new "x" (.fixed 0) (.fixed 8)],
      length := .fixed 8 }

/-- Concrete child of `"a"`: one 12-bit field, `Fixed(12)`. -/
def protoB : Protocol :=
  { Protocol.new "b" none .big (some "a") with
      fields := [FieldRule.new "y" (.fixed 0) (.fixed 12)],
      length := .fixed 12 }

/-- Concrete child of `"a"` whose trailing field is variable-length
after 4 fixed bits: `Variable(4)`. -/
def protoBVar : Protocol :=
  { Protocol.new "b" none .big (some "a") with
      fields := [FieldRule.new "y" (.fixed 0) (.fixed 4),
                 FieldRule.new "z" .input .varLen],
      length := .varLen 4 }

/-- Registry with chain lengths `[Fixed(8), Fixed(12)]` under `"b"`. -/
def regFixedPair : List Protocol := [protoA, protoB]

/-- Registry with chain lengths `[Fixed(8), Variable(4)]` under `"b"`. -/
def regVarPair : List Protocol := [protoA, protoBVar]

/-- C6. `get_total_length` folds the root-to-leaf inheritance chain: on
an all-`Fixed` chain it returns `Fixed` of the total; at the first
`Variable(k)` chain protocol it returns `Variable(fixed-sum-so-far + k)`
immediately, ignoring every later chain protocol.  On the concrete
chains `[Fixed(8), Fixed(12)]` and `[Fixed(8), Variable(4)]` it yields
`Fixed(20)` and `Variable(12)`. -/
theorem c6_get_total_length (ps : List Protocol) (id : String) :
    ((∀ p ∈ ProtocolRegistry.get_inheritance_chain ps id,
        isFixedLen p.length = true) →
      ProtocolRegistry.get_total_length ps id
        = .fixed (sumFixed (ProtocolRegistry.get_inheritance_chain ps id))) ∧
    (∀ pre p post k,
      ProtocolRegistry.get_inheritance_chain ps id = pre ++ p :: post →
      (∀ q ∈ pre, isFixedLen q.length = true) →
      p.length = ProtocolLength.varLen k →
      ProtocolRegistry.get_total_length ps id
        = .varLen (sumFixed pre + k)) ∧
    ProtocolRegistry.get_total_length regFixedPair "b" = .fixed 20 ∧
    ProtocolRegistry.get_total_length regVarPair "b" = .varLen 12 := by
  refine ⟨?_, ?_, by decide, by decide⟩
  · intro hall
    unfold ProtocolRegistry.get_total_length
    rw [aggrChain_all_fixed _ 0 hall]
    simp
  · intro pre p post k hch hpre hp
    unfold ProtocolRegistry.get_total_length
    rw [hch, aggrChain_var pre 0 k p post hpre hp]
    simp

/-- Witness for C6: the variable-stops-the-fold branch instantiated on
the concrete chain `[Fixed(8), Variable(4)]`. -/
theorem c6_get_total_length_witness :
    ProtocolRegistry.get_total_length regVarPair "b"
      = .varLen (sumFixed [protoA] + 4) :=
  (c6_get_total_length regVarPair "b").2.1 [protoA] protoBVar [] 4
    (by decide) (by decide) (by decide)

/-- Helper: an id the registry does not contain never resolves. -/
theorem lookup_none_of_contains_false (ps : List Protocol) (id : String)
    (h : containsKey ps id = false) : lookupProto ps id = none := by
  unfold lookupProto
  rw [List.find?_eq_none]
  intro x hx
  simp only [Bool.not_eq_true]
  cases hc : (x.id == id) with
  | false => rfl
  | true =>
    exfalso
    have hany : ps.any (fun p => p.id == id) = true :=
      List.any_eq_true.mpr ⟨x, hx, hc⟩
    unfold containsKey at h
    rw [h] at hany
    exact Bool.false_ne_true hany

/-- Helper: the chain walk only ever appends to its accumulator. -/
theorem chainAux_extends (ps : List Protocol) :
    ∀ (fuel : Nat) (cur : Option String) (acc : List Protocol),
      ∃ t, ProtocolRegistry.chainAux ps fuel cur acc = acc ++ t := by
  intro fuel
  induction fuel with
  | zero =>
    intro cur acc
    cases cur with
    | none => exact ⟨[], by simp [ProtocolRegistry.chainAux]⟩
    | some id => exact ⟨[], by simp [ProtocolRegistry.chainAux]⟩
  | succ m ih =>
    intro cur acc
    cases cur with
    | none => exact ⟨[], by simp [ProtocolRegistry.chainAux]⟩
    | some id =>
      cases hl : lookupProto ps id with
      | none => exact ⟨[], by simp [ProtocolRegistry.chainAux, hl]⟩
      | some proto =>
        obtain ⟨t, ht⟩ := ih proto.parent_id (acc ++ [proto])
        refine ⟨proto :: t, ?_⟩
        simp only [ProtocolRegistry.chainAux, hl]
        rw [ht]
        simp

/-- Helper: the inheritance chain is empty exactly when the id itself is
not a registry key. -/
theorem chain_empty_iff (ps : List Protocol) (id : String) :
    ProtocolRegistry.get_inheritance_chain ps id = []
      ↔ containsKey ps id = false := by
  constructor
  · intro hempty
    cases hc : containsKey ps id with
    | false => rfl
    | true =>
      exfalso
      have hsome : (List.find? (fun p => p.id == id) ps).isSome := by
        rw [List.find?_isSome]
        obtain ⟨x, hx, hpx⟩ := List.any_eq_true.mp hc
        exact ⟨x, hx, hpx⟩
      obtain ⟨proto, hproto⟩ := Option.isSome_iff_exists.mp hsome
      have hne : ps ≠ [] := by
        intro hnil
        rw [hnil] at hproto
        simp at hproto
      obtain ⟨m, hm⟩ := Nat.exists_eq_succ_of_ne_zero
        (fun h0 => hne (List.length_eq_zero.mp h0))
      unfold ProtocolRegistry.get_inheritance_chain
        ProtocolRegistry.chainWithFuel at hempty
      rw [hm] at hempty
      have hlook : lookupProto ps id = some proto := hproto
      simp only [ProtocolRegistry.chainAux, hlook, List.nil_append] at hempty
      obtain ⟨t, ht⟩ := chainAux_extends ps m proto.parent_id [proto]
      rw [ht] at hempty
      simp at hempty
  · intro h
    have hl := lookup_none_of_contains_false ps id h
    unfold ProtocolRegistry.get_inheritance_chain ProtocolRegistry.chainWithFuel
    cases hps : ps.length with
    | zero => simp [ProtocolRegistry.chainAux]
    | succ m => simp [ProtocolRegistry.chainAux, hl]

/-- Root protocol `"a"` carrying a field with id `"x"`. -/
def protoADup : Protocol :=
  { Protocol.new "a" none .big none with
      fields := [FieldRule.new "x" (.fixed 0) (.fixed 8)],
      length := .fixed 8 }

/-- Child `"b"` of `"a"` redefining the same field id `"x"`. -/
def protoBDup : Protocol :=
  { Protocol.new "b" none .big (some "a") with
      fields := [FieldRule.new "x" (.fixed 0) (.fixed 12)],
      length := .fixed 12 }

/-- Registry in which parent and child both declare a field id `"x"`. -/
def regDupPair : List Protocol := [protoADup, protoBDup]

/-- C7. `resolve_fields` fails with the protocol-not-found error exactly
when the inheritance chain is empty, which happens exactly when the id
is not a registry key; otherwise it returns the concatenation of the
chain protocols' field lists in root-to-leaf order.  Field ids are not
de-duplicated: when parent and child both declare `"x"`, both entries
survive in order. -/
theorem c7_resolve_fields (ps : List Protocol) (id : String) :
    (ProtocolRegistry.get_inheritance_chain ps id = []
      ↔ containsKey ps id = false) ∧
    (ProtocolRegistry.resolve_fields ps id
        = .error (.protocolNotFound id)
      ↔ containsKey ps id = false) ∧
    (containsKey ps id = true →
      ProtocolRegistry.resolve_fields ps id
        = .ok (((ProtocolRegistry.get_inheritance_chain ps id).map
            (fun p => p.fields)).flatten)) ∧
    (ProtocolRegistry.resolve_fields regDupPair "b"
        = .ok [FieldRule.new "x" (.fixed 0) (.fixed 8),
               FieldRule.new "x" (.fixed 0) (.fixed 12)]) := by
  refine ⟨chain_empty_iff ps id, ⟨?_, ?_⟩, ?_, by rfl⟩
  · intro herr
    unfold ProtocolRegistry.resolve_fields at herr
    by_cases hch : (ProtocolRegistry.get_inheritance_chain ps id).isEmpty
    · exact (chain_empty_iff ps id).mp (List.isEmpty_iff.mp hch)
    · simp only [if_neg hch] at herr
      exact Except.noConfusion herr
  · intro h
    have hch := (chain_empty_iff ps id).mpr h
    unfold ProtocolRegistry.resolve_fields
    simp [hch]
  · intro h
    have hch : ¬ (ProtocolRegistry.get_inheritance_chain ps id).isEmpty := by
      rw [List.isEmpty_iff]
      intro hempty
      rw [(chain_empty_iff ps id).mp hempty] at h
      exact Bool.false_ne_true h
    unfold ProtocolRegistry.resolve_fields
    simp only [if_neg hch]

/-- Witness for C7: the success branch instantiated on the
duplicate-field registry, hypothesis discharged by evaluation. -/
theorem c7_resolve_fields_witness :
    ProtocolRegistry.resolve_fields regDupPair "b"
      = .ok (((ProtocolRegistry.get_inheritance_chain regDupPair "b").map
          (fun p => p.fields)).flatten) :=
  (c7_resolve_fields regDupPair "b").2.2.1 (by decide)


/-- C5. `update_protocol_id(old, new)`: a no-op success when the two ids
are equal; `DuplicateProtocolId` when `new` is already a key;
`ProtocolNotFound` when `old` is absent; otherwise it re-keys the
protocol under `new`, rewrites `parent_id` to `new` on exactly the
protocols whose `parent_id` was `old`, and keeps every protocol whose
`parent_id` names any other id (grandchildren included) untouched —
every result entry is either the re-keyed protocol or a surviving
original, reparented only if it pointed at `old`. -/
theorem c5_update_protocol_id (ps : List Protocol) (o n : String) :
    (o = n → ProtocolRegistry.update_protocol_id ps o n = (ps, none)) ∧
    (o ≠ n → containsKey ps n = true →
      ProtocolRegistry.update_protocol_id ps o n
        = (ps, some (.duplicateProtocolId n))) ∧
    (o ≠ n → containsKey ps n = false → lookupProto ps o = none →
      ProtocolRegistry.update_protocol_id ps o n
        = (ps, some (.protocolNotFound o))) ∧
    (∀ proto, o ≠ n → containsKey ps n = false →
      lookupProto ps o = some proto →
      (ProtocolRegistry.update_protocol_id ps o n).2 = none ∧
      lookupProto (ProtocolRegistry.update_protocol_id ps o n).1 o = none ∧
      lookupProto (ProtocolRegistry.update_protocol_id ps o n).1 n
        = some (ProtocolRegistry.reparent o n { proto with id := n }) ∧
      (∀ p ∈ ps, p.id ≠ o → p.parent_id = some o →
        { p with parent_id := some n }
          ∈ (ProtocolRegistry.update_protocol_id ps o n).1) ∧
      (∀ p ∈ ps, p.id ≠ o → p.parent_id ≠ some o →
        p ∈ (ProtocolRegistry.update_protocol_id ps o n).1) ∧
      (∀ q ∈ (ProtocolRegistry.update_protocol_id ps o n).1,
        q = ProtocolRegistry.reparent o n { proto with id := n } ∨
        ∃ p, p ∈ ps ∧ p.id ≠ o ∧ q = ProtocolRegistry.reparent o n p)) := by
  refine ⟨?_, ?_, ?_, ?_⟩
  · intro h
    unfold ProtocolRegistry.update_protocol_id
    rw [if_pos h]
  · intro ho hn
    unfold ProtocolRegistry.update_protocol_id
    rw [if_neg ho]
    simp [hn]
  · intro ho hn hl
    unfold ProtocolRegistry.update_protocol_id
    rw [if_neg ho]
    simp [hn, hl]
  · intro proto ho hn hl
    have hupd : ProtocolRegistry.update_protocol_id ps o n
        = ((ps.filter (fun p : Protocol => ¬ p.id == o)
            ++ [{ proto with id := n }]).map
              (ProtocolRegistry.reparent o n), none) := by
      unfold ProtocolRegistry.update_protocol_id
      rw [if_neg ho]
      simp [hn, hl]
    have hid_reparent : ∀ p : Protocol,
        (ProtocolRegistry.reparent o n p).id = p.id := by
      intro p
      unfold ProtocolRegistry.reparent
      by_cases hp : p.parent_id = some o
      · rw [if_pos hp]
      · rw [if_neg hp]
    have hnotkey : ∀ q ∈ ps, (q.id == n) = false := by
      intro q hq
      cases hc : (q.id == n) with
      | false => rfl
      | true =>
        exfalso
        have : containsKey ps n = true :=
          List.any_eq_true.mpr ⟨q, hq, hc⟩
        rw [hn] at this
        exact Bool.false_ne_true this
    refine ⟨by rw [hupd], ?_, ?_, ?_, ?_, ?_⟩
    · -- no entry keeps the key `o`
      rw [hupd]
      unfold lookupProto
      rw [List.find?_eq_none]
      intro x hx
      obtain ⟨y, hy, hxy⟩ := List.mem_map.mp hx
      rcases List.mem_append.mp hy with hyf | hys
      · have hkeep := (List.mem_filter.mp hyf).2
        simp only [Bool.not_eq_true] at *
        rw [← hxy, hid_reparent y]
        simpa using hkeep
      · have hyeq : y = { proto with id := n } := by simpa using hys
        rw [← hxy, hid_reparent y, hyeq]
        simp only [Bool.not_eq_true]
        cases hc : (({ proto with id := n } : Protocol).id == o) with
        | false => rfl
        | true =>
          exfalso
          have : ({ proto with id := n } : Protocol).id = o := eq_of_beq hc
          exact ho this.symm
    · -- lookup under the new key finds the re-keyed protocol
      rw [hupd]
      unfold lookupProto
      rw [List.map_append, List.find?_append]
      have hleft : List.find? (fun p => p.id == n)
          ((ps.filter (fun p : Protocol => ¬ p.id == o)).map
            (ProtocolRegistry.reparent o n)) = none := by
        rw [List.find?_eq_none]
        intro x hx
        obtain ⟨y, hy, hxy⟩ := List.mem_map.mp hx
        have hymem := (List.mem_filter.mp hy).1
        rw [← hxy]
        simp only [Bool.not_eq_true]
        rw [hid_reparent y]
        exact hnotkey y hymem
      rw [hleft]
      simp [hid_reparent]
    · intro p hp hpid hpar
      rw [hupd]
      have hre : ProtocolRegistry.reparent o n p
          = { p with parent_id := some n } := by
        unfold ProtocolRegistry.reparent
        rw [if_pos hpar]
      rw [← hre]
      apply List.mem_map.mpr
      refine ⟨p, ?_, rfl⟩
      apply List.mem_append.mpr
      left
      apply List.mem_filter.mpr
      refine ⟨hp, ?_⟩
      simpa using hpid
    · intro p hp hpid hpar
      rw [hupd]
      have hre : ProtocolRegistry.reparent o n p = p := by
        unfold ProtocolRegistry.reparent
        rw [if_neg hpar]
      rw [← hre]
      apply List.mem_map.mpr
      refine ⟨p, ?_, rfl⟩
      apply List.mem_append.mpr
      left
      apply List.mem_filter.mpr
      refine ⟨hp, ?_⟩
      simpa using hpid
    · intro q hq
      rw [hupd] at hq
      obtain ⟨y, hy, hxy⟩ := List.mem_map.mp hq
      rcases List.mem_append.mp hy with hyf | hys
      · right
        have hymem := List.mem_filter.mp hyf
        refine ⟨y, hymem.1, ?_, hxy.symm⟩
        have hkeep := hymem.2
        simpa using hkeep
      · left
        have hyeq : y = { proto with id := n } := by simpa using hys
        rw [← hxy, hyeq]

/-- A three-generation registry: `"a"` root, `"b"` child of `"a"`,
`"c"` child of `"b"`. -/
def regChain3 : List Protocol :=
  [Protocol.new "a" none .big none,
   Protocol.new "b" none .big (some "a"),
   Protocol.new "c" none .big (some "b")]

/-- Witness for C5: renaming the root `"a"` to `"z"` in the
three-generation registry succeeds, reparents the direct child `"b"`,
and leaves the grandchild `"c"` (whose parent is the unchanged `"b"`)
untouched. -/
theorem c5_update_protocol_id_witness :
    (ProtocolRegistry.update_protocol_id regChain3 "a" "z").2 = none ∧
    { Protocol.new "b" none .big (some "a") with parent_id := some "z" }
      ∈ (ProtocolRegistry.update_protocol_id regChain3 "a" "z").1 ∧
    Protocol.new "c" none .big (some "b")
      ∈ (ProtocolRegistry.update_protocol_id regChain3 "a" "z").1 :=
  ⟨((c5_update_protocol_id regChain3 "a" "z").2.2.2
      (Protocol.new "a" none .big none) (by decide) (by decide) (by rfl)).1,
   ((c5_update_protocol_id regChain3 "a" "z").2.2.2
      (Protocol.new "a" none .big none) (by decide) (by decide) (by rfl)).2.2.2.1
      (Protocol.new "b" none .big (some "a")) (by simp [regChain3])
      (by decide) (by rfl),
   ((c5_update_protocol_id regChain3 "a" "z").2.2.2
      (Protocol.new "a" none .big none) (by decide) (by decide) (by rfl)).2.2.2.2.1
      (Protocol.new "c" none .big (some "b")) (by simp [regChain3])
      (by decide) (by decide)⟩

/-- Spec-side notion of descendancy: `Desc ps root x` holds when the
protocol named `x` reaches `root` by following `parent_id` links through
any number of generations (`x = root` included). -/
inductive Desc (ps : List Protocol) (root : String) : String → Prop
  | refl : Desc ps root root
  | step (p : Protocol) (q : String) :
      p ∈ ps → p.parent_id = some q → Desc ps root q → Desc ps root p.id

/-- Registry well-formedness, part 1: the map keys are duplicate-free
(automatic for a Rust `HashMap`). -/
abbrev KeysNodup (ps : List Protocol) : Prop := (regKeys ps).Nodup

/-- Registry well-formedness, part 2: every stored `parent_id` names a
present key (maintained by the API: creation checks the parent and
removal cascades). -/
abbrev ParentsPresent (ps : List Protocol) : Prop :=
  ∀ p ∈ ps, p.parent_id.all (fun pid => containsKey ps pid) = true

/-- One protocol respects the rank function: its parent (if any) ranks
strictly below it. -/
def rankOkB (r : String → Nat) (p : Protocol) : Bool :=
  match p.parent_id with
  | none => true
  | some pid => r pid < r p.id

/-- Registry well-formedness, part 3 (witnessed acyclicity): a rank
function strictly decreasing along every parent edge. -/
abbrev RankedOn (ps : List Protocol) (r : String → Nat) : Prop :=
  ∀ p ∈ ps, rankOkB r p = true

/-- The well-formedness invariant every API-reachable registry enjoys. -/
def RegWF (ps : List Protocol) : Prop :=
  KeysNodup ps ∧ ParentsPresent ps ∧ ∃ r, RankedOn ps r

/-- The parent-edge relation of the registry graph: `a`'s stored parent
is `b`. -/
def parentEdge (ps : List Protocol) (a b : String) : Prop :=
  ∃ p ∈ ps, p.id = a ∧ p.parent_id = some b

/-- Acyclicity of the `parent_id` graph: no id reaches itself through
one or more parent edges. -/
def Acyclic (ps : List Protocol) : Prop :=
  ∀ a, ¬ Relation.TransGen (parentEdge ps) a a

/-- Helper: unfold `rankOkB` at a present parent. -/
theorem rankOk_lt {r : String → Nat} {p : Protocol} {pid : String}
    (h : rankOkB r p = true) (hp : p.parent_id = some pid) :
    r pid < r p.id := by
  unfold rankOkB at h
  rw [hp] at h
  simpa using h

/-- Helper: ranks never drop below the root along a descendant chain. -/
theorem desc_rank_le {ps : List Protocol} {root x : String}
    {r : String → Nat} (hr : RankedOn ps r) (h : Desc ps root x) :
    r root ≤ r x := by
  induction h with
  | refl => exact Nat.le_refl _
  | step p q hp hpar _ ih =>
    exact Nat.le_of_lt (Nat.lt_of_le_of_lt ih (rankOk_lt (hr p hp) hpar))

/-- Helper: membership in `childIds`. -/
theorem mem_childIds {ps : List Protocol} {c x : String} :
    x ∈ childIds ps c ↔ ∃ p ∈ ps, p.id = x ∧ p.parent_id = some c := by
  unfold childIds
  constructor
  · intro h
    obtain ⟨p, hp, hpx⟩ := List.mem_map.mp h
    have hmem := List.mem_filter.mp hp
    refine ⟨p, hmem.1, hpx, ?_⟩
    have := hmem.2
    simpa using this
  · intro ⟨p, hp, hpx, hpc⟩
    apply List.mem_map.mpr
    refine ⟨p, ?_, hpx⟩
    apply List.mem_filter.mpr
    refine ⟨hp, ?_⟩
    simp [hpc]

/-- Helper: with duplicate-free keys, `childIds` lists are
duplicate-free. -/
theorem childIds_nodup {ps : List Protocol} {c : String}
    (hnd : KeysNodup ps) : (childIds ps c).Nodup := by
  unfold childIds
  exact List.Nodup.sublist
    (List.Sublist.map (fun p => p.id) (List.filter_sublist ps)) hnd

/-- Helper: with duplicate-free keys, equal ids force equal protocols. -/
theorem id_inj {ps : List Protocol} {p q : Protocol}
    (hnd : KeysNodup ps) (hp : p ∈ ps) (hq : q ∈ ps) (h : p.id = q.id) :
    p = q :=
  List.inj_on_of_nodup_map hnd hp hq h

/-- Helper: a contained key is among `regKeys`. -/
theorem mem_regKeys_of_contains {ps : List Protocol} {x : String}
    (h : containsKey ps x = true) : x ∈ regKeys ps := by
  obtain ⟨p, hp, hpx⟩ := List.any_eq_true.mp h
  have : p.id = x := eq_of_beq hpx
  rw [← this]
  exact List.mem_map_of_mem _ hp

/-- Master invariant of the breadth-first worklist loop of
`remove_protocol`: starting from any state whose scanned prefix `done`
and frontier `pending` (i) fit in the key budget, (ii) are
duplicate-free, (iii) mention only keys, (iv) mention only descendants
of `root`, (v) have the children of every scanned id already enqueued,
and (vi) entered the worklist either as `root` or as a child of a
scanned id — the loop result contains the whole worklist, contains only
descendants of `root`, and is closed under children.  The rank function
certifies that the walk never meets an id twice, which is what makes
fuel `ps.length` sufficient. -/
theorem bfs_invariant (ps : List Protocol) (root : String) (r : String → Nat)
    (hnd : KeysNodup ps) (hr : RankedOn ps r) :
    ∀ (fuel : Nat) (done pending : List String),
      fuel + done.length = ps.length →
      (done ++ pending).Nodup →
      (∀ x ∈ done ++ pending, x ∈ regKeys ps) →
      (∀ x ∈ done ++ pending, Desc ps root x) →
      (∀ c ∈ done, ∀ x ∈ childIds ps c, x ∈ done ++ pending) →
      (∀ x ∈ done ++ pending, x = root ∨
        ∃ c ∈ done, ∃ p ∈ ps, p.id = x ∧ p.parent_id = some c) →
      (∀ x ∈ done ++ pending,
        x ∈ ProtocolRegistry.bfsAux ps fuel done pending) ∧
      (∀ x ∈ ProtocolRegistry.bfsAux ps fuel done pending, Desc ps root x) ∧
      (∀ c ∈ ProtocolRegistry.bfsAux ps fuel done pending,
        ∀ x ∈ childIds ps c, x ∈ ProtocolRegistry.bfsAux ps fuel done pending) := by
  intro fuel
  induction fuel with
  | zero =>
    intro done pending hlen hnodup hsub hdesc hclosed hentry
    have hpend : pending = [] := by
      cases pending with
      | nil => rfl
      | cons y rest =>
        exfalso
        have hdn : done.Nodup := (List.nodup_append.mp hnodup).1
        have hy_not_done : y ∉ done := by
          intro hy
          exact (List.nodup_append.mp hnodup).2.2 hy (List.mem_cons_self _ _)
        have hnodup2 : (y :: done).Nodup := List.nodup_cons.mpr ⟨hy_not_done, hdn⟩
        have hsub2 : (y :: done) ⊆ regKeys ps := by
          intro x hx
          rcases List.mem_cons.mp hx with h1 | h2
          · rw [h1]
            exact hsub y (List.mem_append.mpr (Or.inr (List.mem_cons_self _ _)))
          · exact hsub x (List.mem_append.mpr (Or.inl h2))
        have hle := List.Subperm.length_le (List.subperm_of_subset hnodup2 hsub2)
        simp only [List.length_cons, regKeys, List.length_map] at hle
        omega
    subst hpend
    refine ⟨?_, ?_, ?_⟩
    · intro x hx
      simpa [ProtocolRegistry.bfsAux] using (by simpa using hx : x ∈ done)
    · intro x hx
      exact hdesc x (by simpa [ProtocolRegistry.bfsAux] using hx)
    · intro c hc x hx
      have hcd : c ∈ done := by simpa [ProtocolRegistry.bfsAux] using hc
      simpa [ProtocolRegistry.bfsAux] using hclosed c hcd x hx
  | succ m ih =>
    intro done pending hlen hnodup hsub hdesc hclosed hentry
    cases pending with
    | nil =>
      refine ⟨?_, ?_, ?_⟩
      · intro x hx
        simpa [ProtocolRegistry.bfsAux] using (by simpa using hx : x ∈ done)
      · intro x hx
        exact hdesc x (by simpa [ProtocolRegistry.bfsAux] using hx)
      · intro c hc x hx
        have hcd : c ∈ done := by simpa [ProtocolRegistry.bfsAux] using hc
        simpa [ProtocolRegistry.bfsAux] using hclosed c hcd x hx
    | cons c rest =>
      have hc_mem : c ∈ done ++ c :: rest :=
        List.mem_append.mpr (Or.inr (List.mem_cons_self _ _))
      have hc_desc : Desc ps root c := hdesc c hc_mem
      have hc_not_done : c ∉ done := by
        intro hcd
        exact (List.nodup_append.mp hnodup).2.2 hcd (List.mem_cons_self _ _)
      -- newly enqueued children never revisit the worklist
      have hdisj : ∀ x ∈ childIds ps c, x ∉ done ++ c :: rest := by
        intro x hx hxold
        obtain ⟨p, hp, hpid, hppar⟩ := mem_childIds.mp hx
        rcases hentry x hxold with hroot | ⟨c2, hc2, p2, hp2, hp2id, hp2par⟩
        · have h1 : r root ≤ r c := desc_rank_le hr hc_desc
          have h2 : r c < r p.id := rankOk_lt (hr p hp) hppar
          rw [hpid, hroot] at h2
          omega
        · have hpp : p = p2 := id_inj hnd hp hp2 (by rw [hpid, hp2id])
          rw [hpp, hp2par] at hppar
          have hcc : c2 = c := Option.some.inj hppar
          rw [hcc] at hc2
          exact hc_not_done hc2
      -- the recursive state is the old worklist followed by the children
      have hlist : (done ++ [c]) ++ (rest ++ childIds ps c)
          = (done ++ c :: rest) ++ childIds ps c := by
        simp
      have hnodup2 : ((done ++ [c]) ++ (rest ++ childIds ps c)).Nodup := by
        rw [hlist]
        exact List.nodup_append.mpr
          ⟨hnodup, childIds_nodup hnd, fun x hx1 hx2 => hdisj x hx2 hx1⟩
      have hsub2 : ∀ x ∈ (done ++ [c]) ++ (rest ++ childIds ps c),
          x ∈ regKeys ps := by
        rw [hlist]
        intro x hx
        rcases List.mem_append.mp hx with hold | hnew
        · exact hsub x hold
        · obtain ⟨p, hp, hpid, _⟩ := mem_childIds.mp hnew
          rw [← hpid]
          exact List.mem_map_of_mem _ hp
      have hdesc2 : ∀ x ∈ (done ++ [c]) ++ (rest ++ childIds ps c),
          Desc ps root x := by
        rw [hlist]
        intro x hx
        rcases List.mem_append.mp hx with hold | hnew
        · exact hdesc x hold
        · obtain ⟨p, hp, hpid, hppar⟩ := mem_childIds.mp hnew
          rw [← hpid]
          exact Desc.step p c hp hppar hc_desc
      have hclosed2 : ∀ c2 ∈ done ++ [c], ∀ x ∈ childIds ps c2,
          x ∈ (done ++ [c]) ++ (rest ++ childIds ps c) := by
        intro c2 hc2 x hx
        rw [hlist]
        rcases List.mem_append.mp hc2 with hcd | hcc
        · exact List.mem_append.mpr (Or.inl (hclosed c2 hcd x hx))
        · have : c2 = c := by simpa using hcc
          rw [this] at hx
          exact List.mem_append.mpr (Or.inr hx)
      have hentry2 : ∀ x ∈ (done ++ [c]) ++ (rest ++ childIds ps c),
          x = root ∨ ∃ c2 ∈ done ++ [c], ∃ p ∈ ps,
            p.id = x ∧ p.parent_id = some c2 := by
        rw [hlist]
        intro x hx
        rcases List.mem_append.mp hx with hold | hnew
        · rcases hentry x hold with hroot | ⟨c2, hc2, p, hp, hpid, hppar⟩
          · exact Or.inl hroot
          · exact Or.inr ⟨c2, List.mem_append.mpr (Or.inl hc2), p, hp, hpid, hppar⟩
        · obtain ⟨p, hp, hpid, hppar⟩ := mem_childIds.mp hnew
          exact Or.inr ⟨c, List.mem_append.mpr (Or.inr (List.mem_cons_self _ _)),
            p, hp, hpid, hppar⟩
      have hlen2 : m + (done ++ [c]).length = ps.length := by
        simp only [List.length_append, List.length_cons, List.length_nil]
        omega
      have hres := ih (done ++ [c]) (rest ++ childIds ps c)
        hlen2 hnodup2 hsub2 hdesc2 hclosed2 hentry2
      have hstep : ProtocolRegistry.bfsAux ps (m + 1) done (c :: rest)
          = ProtocolRegistry.bfsAux ps m (done ++ [c])
              (rest ++ childIds ps c) := by
        simp [ProtocolRegistry.bfsAux]
      rw [hstep]
      refine ⟨?_, hres.2.1, hres.2.2⟩
      intro x hx
      apply hres.1
      rw [hlist]
      exact List.mem_append.mpr (Or.inl hx)

/-- C4. `remove_protocol(id)` on a well-formed registry: when `id` is
absent it fails with `ProtocolNotFound` and returns the registry
unchanged; when present it succeeds and removes exactly `id` together
with every protocol whose `parent_id` chain transitively reaches `id` —
every descendant is gone, every non-descendant survives, and nothing is
added. -/
theorem c4_remove_protocol (ps : List Protocol) (i : String)
    (hwf : RegWF ps) :
    (containsKey ps i = false →
      ProtocolRegistry.remove_protocol ps i
        = (ps, some (.protocolNotFound i))) ∧
    (containsKey ps i = true →
      (ProtocolRegistry.remove_protocol ps i).2 = none ∧
      (∀ p ∈ ps, Desc ps i p.id →
        p ∉ (ProtocolRegistry.remove_protocol ps i).1) ∧
      (∀ p ∈ ps, ¬ Desc ps i p.id →
        p ∈ (ProtocolRegistry.remove_protocol ps i).1) ∧
      (∀ p ∈ (ProtocolRegistry.remove_protocol ps i).1, p ∈ ps)) := by
  obtain ⟨hnd, _, r, hr⟩ := hwf
  constructor
  · intro h
    unfold ProtocolRegistry.remove_protocol
    simp [h]
  · intro h
    have hresult : ProtocolRegistry.remove_protocol ps i
        = (ps.filter (fun p =>
            ¬ (ProtocolRegistry.bfsAux ps ps.length [] [i]).contains p.id),
           none) := by
      unfold ProtocolRegistry.remove_protocol
      simp [h]
    have hkey : i ∈ regKeys ps := mem_regKeys_of_contains h
    have hinv := bfs_invariant ps i r hnd hr ps.length [] [i]
      (by simp) (by simp)
      (by intro x hx; simp at hx; rw [hx]; exact hkey)
      (by intro x hx; simp at hx; rw [hx]; exact Desc.refl)
      (by intro c hc; simp at hc)
      (by intro x hx; simp at hx; exact Or.inl hx)
    obtain ⟨hall, hsound, hclosed⟩ := hinv
    have hroot_in : i ∈ ProtocolRegistry.bfsAux ps ps.length [] [i] :=
      hall i (by simp)
    have hcomplete : ∀ x, Desc ps i x →
        x ∈ ProtocolRegistry.bfsAux ps ps.length [] [i] := by
      intro x hdx
      induction hdx with
      | refl => exact hroot_in
      | step p q hp hpar _ ihq =>
        exact hclosed q ihq p.id (mem_childIds.mpr ⟨p, hp, rfl, hpar⟩)
    refine ⟨by rw [hresult], ?_, ?_, ?_⟩
    · intro p hp hdp hmem
      rw [hresult] at hmem
      have hkeep := (List.mem_filter.mp hmem).2
      have hin := hcomplete p.id hdp
      simp at hkeep
      exact hkeep hin
    · intro p hp hdp
      rw [hresult]
      apply List.mem_filter.mpr
      refine ⟨hp, ?_⟩
      simp only [decide_eq_true_eq]
      intro hcon
      apply hdp
      apply hsound
      simpa using hcon
    · intro p hpmem
      rw [hresult] at hpmem
      exact (List.mem_filter.mp hpmem).1

/-- A rank function certifying acyclicity of `regChain3`. -/
def rankChain3 : String → Nat :=
  fun s => if s = "a" then 0 else if s = "b" then 1 else 2

/-- Witness for C4: removing the root `"a"` of the three-generation
registry succeeds (and, per the theorem, cascades over the whole
descendant set). -/
theorem c4_remove_protocol_witness :
    (ProtocolRegistry.remove_protocol regChain3 "a").2 = none :=
  ((c4_remove_protocol regChain3 "a"
      ⟨by decide, by decide, ⟨rankChain3, by decide⟩⟩).2 (by decide)).1

/-- Registries reachable from the empty registry through the public
`ProtocolRegistry` API: `create_protocol`, `remove_protocol`,
`update_protocol_id` and `edit_protocol` (the last with an arbitrary
caller-supplied mutator), each step successful. -/
inductive Reachable : List Protocol → Prop
  | empty : Reachable ProtocolRegistry.new
  | create (ps : List Protocol) (id : String) (name : Option String)
      (e : Endianness) (parent_id : Option String) :
      Reachable ps →
      (ProtocolRegistry.create_protocol ps id name e parent_id).2 = none →
      Reachable (ProtocolRegistry.create_protocol ps id name e parent_id).1
  | remove (ps : List Protocol) (id : String) :
      Reachable ps →
      (ProtocolRegistry.remove_protocol ps id).2 = none →
      Reachable (ProtocolRegistry.remove_protocol ps id).1
  | rename (ps : List Protocol) (old_id new_id : String) :
      Reachable ps →
      (ProtocolRegistry.update_protocol_id ps old_id new_id).2 = none →
      Reachable (ProtocolRegistry.update_protocol_id ps old_id new_id).1
  | edit (ps : List Protocol) (id : String)
      (f : Protocol → Protocol × Option String) :
      Reachable ps →
      (ProtocolRegistry.edit_protocol ps id f).2 = none →
      Reachable (ProtocolRegistry.edit_protocol ps id f).1

/-- Helper: `containsKey` agrees with membership in `regKeys`. -/
theorem contains_iff_mem_regKeys {ps : List Protocol} {x : String} :
    containsKey ps x = true ↔ x ∈ regKeys ps := by
  constructor
  · exact mem_regKeys_of_contains
  · intro h
    obtain ⟨p, hp, hpx⟩ := List.mem_map.mp h
    exact List.any_eq_true.mpr ⟨p, hp, by simp [hpx]⟩

/-- Helper: an uncontained key is not among `regKeys`. -/
theorem not_mem_regKeys {ps : List Protocol} {x : String}
    (h : containsKey ps x = false) : x ∉ regKeys ps := by
  intro hmem
  rw [← contains_iff_mem_regKeys] at hmem
  rw [h] at hmem
  exact Bool.false_ne_true hmem

/-- Helper: `rankOkB` only reads the id and parent of its argument. -/
theorem rankOkB_congr {r : String → Nat} {p q : Protocol}
    (hid : p.id = q.id) (hpar : p.parent_id = q.parent_id) :
    rankOkB r p = rankOkB r q := by
  unfold rankOkB
  rw [hid, hpar]

/-- Helper: a rank function strictly decreasing on edges rules out
cycles. -/
theorem acyclic_of_ranked {ps : List Protocol} {r : String → Nat}
    (hr : RankedOn ps r) : Acyclic ps := by
  intro a hcycle
  have hdrop : ∀ x y, Relation.TransGen (parentEdge ps) x y → r y < r x := by
    intro x y hxy
    induction hxy with
    | single hedge =>
      obtain ⟨p, hp, hpid, hpar⟩ := hedge
      rw [← hpid]
      exact rankOk_lt (hr p hp) hpar
    | tail _ hedge ih =>
      obtain ⟨p, hp, hpid, hpar⟩ := hedge
      have h2 := rankOk_lt (hr p hp) hpar
      rw [hpid] at h2
      exact Nat.lt_trans h2 ih
  exact absurd (hdrop a a hcycle) (Nat.lt_irrefl _)

/-- Helper: `create_protocol` preserves registry well-formedness. -/
theorem wf_create (ps : List Protocol) (id : String) (nm : Option String)
    (e : Endianness) (pid : Option String) (hwf : RegWF ps)
    (hs : (ProtocolRegistry.create_protocol ps id nm e pid).2 = none) :
    RegWF (ProtocolRegistry.create_protocol ps id nm e pid).1 := by
  obtain ⟨hnd, hpp, r, hr⟩ := hwf
  cases hc : containsKey ps id with
  | true =>
    exfalso
    unfold ProtocolRegistry.create_protocol at hs
    rw [hc] at hs
    simp at hs
  | false =>
    have hshape : (ProtocolRegistry.create_protocol ps id nm e pid).1
        = ps ++ [Protocol.new id nm e pid]
        ∧ (∀ q, pid = some q → containsKey ps q = true) := by
      unfold ProtocolRegistry.create_protocol at hs ⊢
      rw [hc] at hs ⊢
      cases hpid : pid with
      | none => exact ⟨by simp, by intro q hq; exact absurd hq (by simp)⟩
      | some q =>
        cases hcq : containsKey ps q with
        | false => rw [hpid] at hs; simp [hcq] at hs
        | true =>
          refine ⟨by simp [hcq], ?_⟩
          intro q2 hq2
          have : q2 = q := by injection hq2.symm
          rw [this]
          exact hcq
    obtain ⟨hres, hparent⟩ := hshape
    rw [hres]
    refine ⟨?_, ?_, ?_⟩
    · -- keys stay duplicate-free: the new id was fresh
      unfold KeysNodup regKeys
      rw [List.map_append]
      apply List.nodup_append.mpr
      refine ⟨hnd, by simp [Protocol.new], ?_⟩
      intro x hx hx2
      have : x = id := by simpa [Protocol.new] using hx2
      rw [this] at hx
      exact not_mem_regKeys hc hx
    · -- all parents still present
      intro p hp
      rcases List.mem_append.mp hp with hold | hnew
      · have := hpp p hold
        cases hpar : p.parent_id with
        | none => simp [hpar]
        | some q =>
          rw [hpar] at this
          simp only [Option.all_some] at this
          simp only [hpar, Option.all_some]
          unfold containsKey at this ⊢
          rw [List.any_append]
          simp [this]
      · have hpeq : p = Protocol.new id nm e pid := by simpa using hnew
        rw [hpeq]
        cases hpid2 : pid with
        | none => simp [Protocol.new, hpid2]
        | some q =>
          have hq := hparent q hpid2
          simp only [Protocol.new, hpid2, Option.all_some]
          unfold containsKey at hq ⊢
          rw [List.any_append]
          simp [hq]
    · -- extend the rank function with the fresh id above its parent
      refine ⟨fun x => if x = id then pid.elim 0 (fun q => r q + 1)
        else r x, ?_⟩
      intro p hp
      rcases List.mem_append.mp hp with hold | hnew
      · have hok := hr p hold
        have hpidne : p.id ≠ id := by
          intro hcon
          apply not_mem_regKeys hc
          rw [← hcon]
          exact List.mem_map_of_mem _ hold
        unfold rankOkB at hok ⊢
        cases hpar : p.parent_id with
        | none => simp
        | some q =>
          rw [hpar] at hok
          have hqkeys : containsKey ps q = true := by
            have := hpp p hold
            rw [hpar] at this
            simpa using this
          have hqne : q ≠ id := by
            intro hcon
            rw [hcon] at hqkeys
            rw [hc] at hqkeys
            exact Bool.false_ne_true hqkeys
          simp only [if_neg hqne, if_neg hpidne]
          exact hok
      · have hpeq : p = Protocol.new id nm e pid := by simpa using hnew
        rw [hpeq]
        unfold rankOkB
        cases hpid2 : pid with
        | none => simp [Protocol.new]
        | some q =>
          have hq := hparent q hpid2
          have hqne : q ≠ id := by
            intro hcon
            rw [hcon] at hq
            rw [hc] at hq
            exact Bool.false_ne_true hq
          simp [Protocol.new, if_neg hqne, Option.elim]

/-- Helper: `remove_protocol` preserves registry well-formedness; in
particular the cascade keeps all surviving parents present, because the
breadth-first set is closed under children. -/
theorem wf_remove (ps : List Protocol) (i : String) (hwf : RegWF ps)
    (hs : (ProtocolRegistry.remove_protocol ps i).2 = none) :
    RegWF (ProtocolRegistry.remove_protocol ps i).1 := by
  obtain ⟨hnd, hpp, r, hr⟩ := hwf
  cases hc : containsKey ps i with
  | false =>
    exfalso
    unfold ProtocolRegistry.remove_protocol at hs
    rw [hc] at hs
    simp at hs
  | true =>
    have hresult : (ProtocolRegistry.remove_protocol ps i).1
        = ps.filter (fun p =>
            ¬ (ProtocolRegistry.bfsAux ps ps.length [] [i]).contains p.id) := by
      unfold ProtocolRegistry.remove_protocol
      simp [hc]
    have hkey : i ∈ regKeys ps := mem_regKeys_of_contains hc
    have hinv := bfs_invariant ps i r hnd hr ps.length [] [i]
      (by simp) (by simp)
      (by intro x hx; simp at hx; rw [hx]; exact hkey)
      (by intro x hx; simp at hx; rw [hx]; exact Desc.refl)
      (by intro c hcm; simp at hcm)
      (by intro x hx; simp at hx; exact Or.inl hx)
    obtain ⟨_, _, hclosed⟩ := hinv
    rw [hresult]
    refine ⟨?_, ?_, ⟨r, ?_⟩⟩
    · unfold KeysNodup regKeys at hnd ⊢
      exact List.Nodup.sublist
        (List.Sublist.map (fun p => p.id) (List.filter_sublist ps)) hnd
    · intro p hp
      have hpm := List.mem_filter.mp hp
      cases hpar : p.parent_id with
      | none => simp [hpar]
      | some q =>
        have hqold : containsKey ps q = true := by
          have := hpp p hpm.1
          rw [hpar] at this
          simpa using this
        obtain ⟨pe, hpe, hpeq⟩ := List.mem_map.mp (mem_regKeys_of_contains hqold)
        have hqnotR : q ∉ ProtocolRegistry.bfsAux ps ps.length [] [i] := by
          intro hqR
          have hchild : p.id ∈ childIds ps q :=
            mem_childIds.mpr ⟨p, hpm.1, rfl, hpar⟩
          have hpidR := hclosed q hqR p.id hchild
          have := hpm.2
          simp at this
          exact this hpidR
        have hpe_filter : pe ∈ ps.filter (fun p =>
            ¬ (ProtocolRegistry.bfsAux ps ps.length [] [i]).contains p.id) := by
          apply List.mem_filter.mpr
          refine ⟨hpe, ?_⟩
          simp only [decide_eq_true_eq]
          intro hcon
          apply hqnotR
          rw [← hpeq]
          simpa using hcon
        simp only [hpar, Option.all_some]
        exact List.any_eq_true.mpr ⟨pe, hpe_filter, by simp [hpeq]⟩
    · intro p hp
      exact hr p (List.mem_filter.mp hp).1

/-- Helper: `edit_protocol` preserves registry well-formedness — a
successful mutator leaves both the id and the parent of the edited
protocol untouched, so the key multiset and the parent graph are
unchanged. -/
theorem wf_edit (ps : List Protocol) (id : String)
    (f : Protocol → Protocol × Option String) (hwf : RegWF ps)
    (hs : (ProtocolRegistry.edit_protocol ps id f).2 = none) :
    RegWF (ProtocolRegistry.edit_protocol ps id f).1 := by
  obtain ⟨hnd, hpp, r, hr⟩ := hwf
  cases hidx : ps.findIdx? (fun p => p.id == id) with
  | none =>
    exfalso
    unfold ProtocolRegistry.edit_protocol at hs
    rw [hidx] at hs
    simp at hs
  | some pos =>
    have hpos : pos < ps.length := findIdx?_lt_length hidx
    cases happ : (f (ps.getD pos (Protocol.new "" none .big none))).2 with
    | some e =>
      exfalso
      unfold ProtocolRegistry.edit_protocol at hs
      rw [hidx] at hs
      simp only [happ] at hs
      simp at hs
    | none =>
      by_cases hid : (f (ps.getD pos (Protocol.new "" none .big none))).1.id
          = (ps.getD pos (Protocol.new "" none .big none)).id
      · by_cases hpar : (f (ps.getD pos (Protocol.new "" none .big none))).1.parent_id
            = (ps.getD pos (Protocol.new "" none .big none)).parent_id
        · have hresult : (ProtocolRegistry.edit_protocol ps id f).1
              = ps.set pos (f (ps.getD pos (Protocol.new "" none .big none))).1 := by
            unfold ProtocolRegistry.edit_protocol
            rw [hidx]
            simp only [happ, if_pos hid, if_pos hpar]
          have hbmem : ps.getD pos (Protocol.new "" none .big none) ∈ ps := by
            rw [List.getD_eq_getElem _ _ hpos]
            exact List.getElem_mem hpos
          have hkeys : regKeys (ps.set pos
              (f (ps.getD pos (Protocol.new "" none .big none))).1)
              = regKeys ps := by
            unfold regKeys
            rw [List.map_set, hid]
            have hb : (ps.getD pos (Protocol.new "" none .big none)).id
                = (ps.map (fun p => p.id)).getD pos "" := by
              rw [List.getD_eq_getElem _ _ hpos,
                  List.getD_eq_getElem _ _ (by simpa using hpos)]
              rw [List.getElem_map]
            rw [hb]
            exact set_getD_self _ _ _ (by simpa using hpos)
          rw [hresult]
          refine ⟨?_, ?_, ⟨r, ?_⟩⟩
          · unfold KeysNodup
            rw [hkeys]
            exact hnd
          · intro p hp
            have hcases := List.mem_or_eq_of_mem_set hp
            have hpresent : ∀ q : Protocol, q ∈ ps →
                q.parent_id.all (fun pid => containsKey (ps.set pos
                  (f (ps.getD pos (Protocol.new "" none .big none))).1) pid)
                  = true := by
              intro q hq
              have := hpp q hq
              cases hqp : q.parent_id with
              | none => simp
              | some pid =>
                rw [hqp] at this
                simp only [Option.all_some] at this ⊢
                rw [contains_iff_mem_regKeys] at this ⊢
                rw [hkeys]
                exact this
            rcases hcases with hold | hnew
            · exact hpresent p hold
            · rw [hnew]
              cases hfp : (f (ps.getD pos (Protocol.new "" none .big none))).1.parent_id with
              | none => simp
              | some pid =>
                rw [hfp] at hpar
                have := hpresent _ hbmem
                rw [← hpar] at this
                simpa using this
          · intro p hp
            rcases List.mem_or_eq_of_mem_set hp with hold | hnew
            · exact hr p hold
            · rw [hnew, rankOkB_congr hid hpar]
              exact hr _ hbmem
        · exfalso
          unfold ProtocolRegistry.edit_protocol at hs
          rw [hidx] at hs
          simp only [happ, if_pos hid, if_neg hpar] at hs
          simp at hs
      · exfalso
        unfold ProtocolRegistry.edit_protocol at hs
        rw [hidx] at hs
        simp only [happ, if_neg hid] at hs
        simp at hs

/-- Helper: `reparent` never changes the id. -/
theorem reparent_id (o n : String) (p : Protocol) :
    (ProtocolRegistry.reparent o n p).id = p.id := by
  unfold ProtocolRegistry.reparent
  by_cases hp : p.parent_id = some o
  · rw [if_pos hp]
  · rw [if_neg hp]

/-- Helper: `update_protocol_id` preserves registry well-formedness —
re-keying is a graph isomorphism on ids, transported along a renamed
rank function. -/
theorem wf_rename (ps : List Protocol) (o n : String) (hwf : RegWF ps)
    (hs : (ProtocolRegistry.update_protocol_id ps o n).2 = none) :
    RegWF (ProtocolRegistry.update_protocol_id ps o n).1 := by
  obtain ⟨hnd, hpp, r, hr⟩ := hwf
  by_cases hon : o = n
  · unfold ProtocolRegistry.update_protocol_id
    rw [if_pos hon]
    exact ⟨hnd, hpp, r, hr⟩
  · cases hcn : containsKey ps n with
    | true =>
      exfalso
      unfold ProtocolRegistry.update_protocol_id at hs
      rw [if_neg hon] at hs
      simp [hcn] at hs
    | false =>
      cases hlo : lookupProto ps o with
      | none =>
        exfalso
        unfold ProtocolRegistry.update_protocol_id at hs
        rw [if_neg hon] at hs
        simp [hcn, hlo] at hs
      | some proto =>
        have hlo2 : List.find? (fun p => p.id == o) ps = some proto := hlo
        have hproto_mem : proto ∈ ps := List.mem_of_find?_eq_some hlo2
        have hproto_id : proto.id = o := by
          simpa using List.find?_some hlo2
        have hresult : (ProtocolRegistry.update_protocol_id ps o n).1
            = ((ps.filter (fun p : Protocol => ¬ p.id == o))
                ++ [{ proto with id := n }]).map
                  (ProtocolRegistry.reparent o n) := by
          unfold ProtocolRegistry.update_protocol_id
          rw [if_neg hon]
          simp [hcn, hlo]
        have hid_ne_n : ∀ y : Protocol, y ∈ ps → y.id ≠ n := by
          intro y hy hcon
          have : containsKey ps n = true :=
            List.any_eq_true.mpr ⟨y, hy, by simp [hcon]⟩
          rw [hcn] at this
          exact Bool.false_ne_true this
        have hkey_ne_n : ∀ x, x ∈ regKeys ps → x ≠ n := by
          intro x hx hcon
          rw [hcon] at hx
          exact not_mem_regKeys hcn hx
        have hkeys_eq : regKeys (((ps.filter (fun p : Protocol => ¬ p.id == o))
            ++ [{ proto with id := n }]).map (ProtocolRegistry.reparent o n))
            = (ps.filter (fun p : Protocol => ¬ p.id == o)).map
                (fun p => p.id) ++ [n] := by
          unfold regKeys
          rw [List.map_map, List.map_append]
          congr 1
          · apply List.map_congr_left
            intro y _
            exact reparent_id o n y
          · simp [reparent_id]
        -- membership of the surviving keys
        have hsurvive : ∀ pid, pid ∈ regKeys ps → pid ≠ o →
            pid ∈ (ps.filter (fun p : Protocol => ¬ p.id == o)).map
              (fun p => p.id) := by
          intro pid hpid hne
          obtain ⟨pe, hpe, hpeid⟩ := List.mem_map.mp hpid
          apply List.mem_map.mpr
          refine ⟨pe, ?_, hpeid⟩
          apply List.mem_filter.mpr
          refine ⟨hpe, ?_⟩
          simp only [decide_eq_true_eq]
          intro hcon
          apply hne
          rw [← hpeid]
          simpa using hcon
        rw [hresult]
        refine ⟨?_, ?_, ?_⟩
        · -- keys stay duplicate-free
          unfold KeysNodup
          rw [hkeys_eq]
          apply List.nodup_append.mpr
          refine ⟨?_, by simp, ?_⟩
          · exact List.Nodup.sublist
              (List.Sublist.map (fun p => p.id) (List.filter_sublist ps)) hnd
          · intro x hx hx2
            have hxn : x = n := by simpa using hx2
            have hxkeys : x ∈ regKeys ps := by
              obtain ⟨pe, hpe, hpeid⟩ := List.mem_map.mp hx
              rw [← hpeid]
              exact List.mem_map_of_mem _ (List.mem_filter.mp hpe).1
            exact hkey_ne_n x hxkeys hxn
        · -- parents stay present
          intro q hq
          obtain ⟨y, hy, hyq⟩ := List.mem_map.mp hq
          have hmem_result : ∀ x, x ∈ (ps.filter
              (fun p : Protocol => ¬ p.id == o)).map (fun p => p.id) ++ [n] →
              containsKey (((ps.filter (fun p : Protocol => ¬ p.id == o))
                ++ [{ proto with id := n }]).map
                  (ProtocolRegistry.reparent o n)) x = true := by
            intro x hx
            rw [contains_iff_mem_regKeys, hkeys_eq]
            exact hx
          have hyparent : y.parent_id.all
              (fun pid => containsKey ps pid) = true ∨
              y = { proto with id := n } := by
            rcases List.mem_append.mp hy with hyf | hys
            · exact Or.inl (hpp y (List.mem_filter.mp hyf).1)
            · exact Or.inr (by simpa using hys)
          rw [← hyq]
          unfold ProtocolRegistry.reparent
          by_cases hyo : y.parent_id = some o
          · rw [if_pos hyo]
            simp only [Option.all_some]
            apply hmem_result
            simp
          · rw [if_neg hyo]
            cases hyp : y.parent_id with
            | none => simp
            | some pid =>
              have hpidne : pid ≠ o := by
                intro hcon
                apply hyo
                rw [hyp, hcon]
              have hpid_keys : pid ∈ regKeys ps := by
                rcases hyparent with hold | hnew
                · rw [hyp] at hold
                  simp only [Option.all_some] at hold
                  exact mem_regKeys_of_contains hold
                · have : proto.parent_id = some pid := by
                    rw [hnew] at hyp
                    simpa using hyp
                  have hpr := hpp proto hproto_mem
                  rw [this] at hpr
                  simp only [Option.all_some] at hpr
                  exact mem_regKeys_of_contains hpr
              simp only [Option.all_some]
              apply hmem_result
              apply List.mem_append.mpr
              exact Or.inl (hsurvive pid hpid_keys hpidne)
        · -- transported rank function
          refine ⟨fun x => if x = n then r o else r x, ?_⟩
          intro q hq
          obtain ⟨y, hy, hyq⟩ := List.mem_map.mp hq
          rw [← hyq]
          rcases List.mem_append.mp hy with hyf | hys
          · -- a surviving original
            have hymem : y ∈ ps := (List.mem_filter.mp hyf).1
            have hyid_ne_o : y.id ≠ o := by
              have := (List.mem_filter.mp hyf).2
              simp only [decide_eq_true_eq] at this
              intro hcon
              exact this (by simp [hcon])
            have hyid_ne_n : y.id ≠ n := hid_ne_n y hymem
            unfold ProtocolRegistry.reparent rankOkB
            by_cases hyo : y.parent_id = some o
            · rw [if_pos hyo]
              have := rankOk_lt (hr y hymem) hyo
              simp [hyid_ne_n, this]
            · rw [if_neg hyo]
              cases hyp : y.parent_id with
              | none => simp
              | some pid =>
                have hpid_keys : pid ∈ regKeys ps := by
                  have := hpp y hymem
                  rw [hyp] at this
                  simp only [Option.all_some] at this
                  exact mem_regKeys_of_contains this
                have hpid_ne_n : pid ≠ n := hkey_ne_n pid hpid_keys
                have := rankOk_lt (hr y hymem) hyp
                simp [hpid_ne_n, hyid_ne_n, this]
          · -- the re-keyed protocol
            have hyeq : y = { proto with id := n } := by simpa using hys
            rw [hyeq]
            unfold ProtocolRegistry.reparent rankOkB
            simp only
            by_cases hpo : proto.parent_id = some o
            · -- a self-parented protocol would contradict the rank
              exfalso
              have := rankOk_lt (hr proto hproto_mem) hpo
              rw [hproto_id] at this
              omega
            · rw [if_neg hpo]
              cases hpp2 : proto.parent_id with
              | none => simp
              | some pid =>
                have hpid_keys : pid ∈ regKeys ps := by
                  have := hpp proto hproto_mem
                  rw [hpp2] at this
                  simp only [Option.all_some] at this
                  exact mem_regKeys_of_contains this
                have hpid_ne_n : pid ≠ n := hkey_ne_n pid hpid_keys
                have := rankOk_lt (hr proto hproto_mem) hpp2
                rw [hproto_id] at this
                simp [hpid_ne_n, this]

/-- Helper: filtering with a weaker predicate keeps at least as many
elements. -/
theorem filter_length_mono {α : Type} (l : List α) (p q : α → Bool)
    (himp : ∀ y, p y = true → q y = true) :
    (l.filter p).length ≤ (l.filter q).length := by
  induction l with
  | nil => simp
  | cons a t ih =>
    cases hpa : p a with
    | true =>
      have hqa := himp a hpa
      simp only [List.filter_cons, hpa, hqa, if_pos, List.length_cons]
      omega
    | false =>
      cases hqa : q a with
      | true =>
        simp only [List.filter_cons, hpa, hqa]
        simp only [Bool.false_eq_true, if_false, if_pos, List.length_cons]
        omega
      | false =>
        simp only [List.filter_cons, hpa, hqa]
        simp only [Bool.false_eq_true, if_false]
        exact ih

/-- Helper: filtering with a strictly weaker predicate (witnessed by an
element satisfying only the weaker one) keeps strictly more elements. -/
theorem filter_length_lt {α : Type} (l : List α) (p q : α → Bool)
    (x : α) (hx : x ∈ l) (himp : ∀ y, p y = true → q y = true)
    (hqx : q x = true) (hpx : p x = false) :
    (l.filter p).length < (l.filter q).length := by
  induction l with
  | nil => cases hx
  | cons a t ih =>
    rcases List.mem_cons.mp hx with hxa | hxt
    · rw [← hxa] at *
      simp only [List.filter_cons, hpx, hqx, Bool.false_eq_true, if_false,
        if_pos, List.length_cons]
      have := filter_length_mono t p q himp
      omega
    · have hlt := ih hxt
      cases hpa : p a with
      | true =>
        have hqa := himp a hpa
        simp only [List.filter_cons, hpa, hqa, if_pos, List.length_cons]
        omega
      | false =>
        cases hqa : q a with
        | true =>
          simp only [List.filter_cons, hpa, hqa, Bool.false_eq_true,
            if_false, if_pos, List.length_cons]
          omega
        | false =>
          simp only [List.filter_cons, hpa, hqa, Bool.false_eq_true, if_false]
          exact hlt

/-- Helper: on a ranked registry with all parents present, the chain
walk is insensitive to the exact fuel once the fuel covers the number of
protocols ranked at or below the start — each step strictly shrinks that
set, so the walk ends before the fuel does.  This is the termination
argument for `get_inheritance_chain`'s unbounded source loop. -/
theorem chain_stable (ps : List Protocol) (r : String → Nat)
    (hr : RankedOn ps r) :
    ∀ (nb : Nat) (cur : Option String) (acc : List Protocol) (f₁ f₂ : Nat),
      (∀ c, cur = some c →
        (ps.filter (fun p => r p.id ≤ r c)).length ≤ nb) →
      nb ≤ f₁ → nb ≤ f₂ →
      ProtocolRegistry.chainAux ps f₁ cur acc
        = ProtocolRegistry.chainAux ps f₂ cur acc := by
  intro nb
  induction nb with
  | zero =>
    intro cur acc f₁ f₂ hcnt _ _
    cases cur with
    | none => cases f₁ <;> cases f₂ <;> rfl
    | some c =>
      have hcnt0 := hcnt c rfl
      have hlook : lookupProto ps c = none := by
        cases hl : lookupProto ps c with
        | none => rfl
        | some proto =>
          exfalso
          have hl2 : List.find? (fun p => p.id == c) ps = some proto := hl
          have hmem : proto ∈ ps := List.mem_of_find?_eq_some hl2
          have hid : proto.id = c := by simpa using List.find?_some hl2
          have hin : proto ∈ ps.filter (fun p => r p.id ≤ r c) :=
            List.mem_filter.mpr ⟨hmem, by simp [hid]⟩
          have := List.length_pos.mpr (List.ne_nil_of_mem hin)
          omega
      cases f₁ <;> cases f₂ <;> simp [ProtocolRegistry.chainAux, hlook]
  | succ m ih =>
    intro cur acc f₁ f₂ hcnt h1 h2
    cases cur with
    | none => cases f₁ <;> cases f₂ <;> rfl
    | some c =>
      cases hl : lookupProto ps c with
      | none => cases f₁ <;> cases f₂ <;> simp [ProtocolRegistry.chainAux, hl]
      | some proto =>
        obtain ⟨a, rfl⟩ : ∃ a, f₁ = a + 1 := ⟨f₁ - 1, by omega⟩
        obtain ⟨b, rfl⟩ : ∃ b, f₂ = b + 1 := ⟨f₂ - 1, by omega⟩
        simp only [ProtocolRegistry.chainAux, hl]
        have hl2 : List.find? (fun p => p.id == c) ps = some proto := hl
        have hmem : proto ∈ ps := List.mem_of_find?_eq_some hl2
        have hid : proto.id = c := by simpa using List.find?_some hl2
        apply ih
        · intro c2 hc2
          have hlt : r c2 < r c := by
            have := rankOk_lt (hr proto hmem) hc2
            rw [hid] at this
            exact this
          have hsub : (ps.filter (fun p => r p.id ≤ r c2)).length
              < (ps.filter (fun p => r p.id ≤ r c)).length := by
            apply filter_length_lt ps _ _ proto hmem
            · intro y hy
              simp only [decide_eq_true_eq] at hy ⊢
              omega
            · simp [hid]
            · simp only [decide_eq_true_eq, hid]
              simp only [decide_eq_false_iff_not]
              omega
          have := hcnt c rfl
          omega
        · omega
        · omega

/-- Helper: every registry reachable through the public API is
well-formed: duplicate-free keys, all parents present, and a rank
function certifying acyclicity. -/
theorem reachable_wf (ps : List Protocol) (h : Reachable ps) : RegWF ps := by
  induction h with
  | empty =>
    refine ⟨?_, ?_, ⟨fun _ => 0, ?_⟩⟩
    · simp [KeysNodup, regKeys, ProtocolRegistry.new]
    · intro p hp
      simp [ProtocolRegistry.new] at hp
    · intro p hp
      simp [ProtocolRegistry.new] at hp
  | create ps id name e parent_id _ hs ih => exact wf_create ps id name e parent_id ih hs
  | remove ps id _ hs ih => exact wf_remove ps id ih hs
  | rename ps old_id new_id _ hs ih => exact wf_rename ps old_id new_id ih hs
  | edit ps id f _ hs ih => exact wf_edit ps id f ih hs

/-- C9. Starting from the empty registry, no sequence of successful
public operations (`create_protocol`, `remove_protocol`,
`update_protocol_id`, `edit_protocol` with an arbitrary mutator) can
make the `parent_id` graph cyclic, and consequently the
`get_inheritance_chain` walk terminates on every API-reachable registry:
its fueled computation is already stable at fuel `ps.length` — any two
sufficient fuels produce the same chain, so the source's unbounded loop
ends. -/
theorem c9_reachable_registry_acyclic (ps : List Protocol)
    (h : Reachable ps) :
    Acyclic ps ∧
    (∀ (id : String) (f₁ f₂ : Nat), ps.length ≤ f₁ → ps.length ≤ f₂ →
      ProtocolRegistry.chainWithFuel ps f₁ id
        = ProtocolRegistry.chainWithFuel ps f₂ id) := by
  obtain ⟨hnd, hpp, r, hr⟩ := reachable_wf ps h
  constructor
  · exact acyclic_of_ranked hr
  · intro id f₁ f₂ h1 h2
    unfold ProtocolRegistry.chainWithFuel
    congr 1
    apply chain_stable ps r hr ps.length (some id) [] f₁ f₂
    · intro c hc
      exact le_trans (List.length_filter_le _ _) (Nat.le_refl _)
    · exact h1
    · exact h2

/-- Witness for C9: the registry built by one successful
`create_protocol` on the empty registry is acyclic. -/
theorem c9_reachable_registry_acyclic_witness :
    Acyclic (ProtocolRegistry.create_protocol ProtocolRegistry.new "a" none
      Endianness.big none).1 :=
  (c9_reachable_registry_acyclic _
    (Reachable.create ProtocolRegistry.new "a" none Endianness.big none
      Reachable.empty (by decide))).1
